import Mathlib

/-!
Verification of the Bitbucket Perceval backend
(`perceval/backends/bitbucket/bitbucket.py`) against its specification.

The development shallowly embeds the parts of the backend the claims are
about: the JSON dictionaries the backend manipulates, the per-category
fetch loops with their date cutoff (`Bitbucket.__fetch_issues`,
`Bitbucket.__fetch_pull_requests`), the enrichment-field initialisation
(`Bitbucket.__init_extra_issue_fields`, `Bitbucket.__init_extra_pull_fields`)
and enrichment loops, the link-following paginator
(`BitbucketClient.fetch_items`), the user cache (`BitbucketClient.user`),
the commit sub-fetch (`Bitbucket.__get_pull_commits`), user resolution
(`Bitbucket.__get_user`), and metadata extraction (`Bitbucket.metadata_id`).
-/

namespace BitbucketSpec

/-! ### JSON values and dictionaries

The backend works on values produced by `json.loads`: nulls, booleans,
numbers, strings, arrays and objects.  Objects keep insertion order, as
Python dicts do.  Bitbucket timestamps (`updated_on`) are carried around
by the backend as strings and only compared after `str_to_datetime`; the
embedding stores the already-parsed UTC instant as an `int` value. -/

inductive JVal where
  | null
  | bool (b : Bool)
  | int (n : Int)
  | str (s : String)
  | list (vs : List JVal)
  | dict (fs : List (String × JVal))

abbrev Dict := List (String × JVal)

/-- Key membership test, Python's `k in d` on a dict. -/
def Dict.hasKey (d : Dict) (k : String) : Bool :=
  d.any fun kv => kv.1 == k

/-- Subscript access `d[k]`.  Python raises `KeyError` for a missing key;
the backend only subscripts keys the Bitbucket API always supplies, so a
missing key is modelled as `null` (which is falsy, like an absent value). -/
def Dict.get (d : Dict) (k : String) : JVal :=
  match d with
  | [] => .null
  | (k0, v) :: rest => if k0 == k then v else Dict.get rest k

/-- Subscript assignment `d[k] = v`: replace the first binding of `k`,
or append a new binding at the end (Python dict insertion order). -/
def Dict.set (d : Dict) (k : String) (v : JVal) : Dict :=
  match d with
  | [] => [(k, v)]
  | (k0, v0) :: rest => if k0 == k then (k, v) :: rest else (k0, v0) :: Dict.set rest k v

/-- Python truthiness of a JSON value (`if not issue[field]: continue`). -/
def JVal.truthy : JVal → Bool
  | .null => false
  | .bool b => b
  | .int n => !(n == 0)
  | .str s => !(s == "")
  | .list vs => !vs.isEmpty
  | .dict fs => !fs.isEmpty

/-- Attribute access `v[k]` on a JSON value expected to be an object. -/
def JVal.attr (v : JVal) (k : String) : JVal :=
  match v with
  | .dict fs => Dict.get fs k
  | _ => .null

/-- `k in v` on a JSON value expected to be an object. -/
def JVal.hasKeyB (v : JVal) (k : String) : Bool :=
  match v with
  | .dict fs => Dict.hasKey fs k
  | _ => false

/-! ### The per-category fetch loop with its date cutoff

`Bitbucket.__fetch_issues` / `Bitbucket.__fetch_pull_requests` drain the
paginator page by page and, for each item of a page's `values` array in
array order, first test `str_to_datetime(item['updated_on']) > to_date`
and `return` from the whole generator when it holds; otherwise the item
is enriched and yielded.  Both category loops have the same control
structure and differ only in the enrichment applied, which is a
parameter here.  A page is modelled by its parsed `values` array. -/

/-- `str_to_datetime(item['updated_on'])` as a UTC instant; the embedding
stores the parsed instant as an `int` in the `updated_on` field. -/
def itemUpdatedOn (d : Dict) : Int :=
  match Dict.get d "updated_on" with
  | .int t => t
  | _ => 0

/-- The inner loop over one page's `values`: yields enriched items in
order until the first item with `updated_on > to_date`, which makes the
generator return.  Produces the items yielded from this page and whether
the early `return` fired. -/
def processPage (toDate : Int) (enrich : Dict → Dict) : List Dict → List Dict × Bool
  | [] => ([], false)
  | it :: rest =>
    if toDate < itemUpdatedOn it then ([], true)
    else
      let r := processPage toDate enrich rest
      (enrich it :: r.1, r.2)

/-- The outer loop over the pages delivered by the paginator: once a page
triggers the early `return`, no later page is touched. -/
def fetchCategoryItems (toDate : Int) (enrich : Dict → Dict) : List (List Dict) → List Dict
  | [] => []
  | page :: rest =>
    let r := processPage toDate enrich page
    if r.2 then r.1
    else r.1 ++ fetchCategoryItems toDate enrich rest

theorem processPage_eq (toDate : Int) (enrich : Dict → Dict) (page : List Dict) :
    processPage toDate enrich page
      = ((page.takeWhile fun it => itemUpdatedOn it ≤ toDate).map enrich,
         page.any fun it => decide (toDate < itemUpdatedOn it)) := by
  induction page with
  | nil => rfl
  | cons it rest ih =>
    by_cases h : toDate < itemUpdatedOn it
    · simp [processPage, h, List.takeWhile_cons, not_le.mpr h]
    · simp [processPage, h, ih, List.takeWhile_cons, not_lt.mp h]

theorem takeWhile_length_le {α : Type} (p : α → Bool) :
    ∀ (l1 l2 : List α) (x : α), p x = false →
      ((l1 ++ x :: l2).takeWhile p).length ≤ l1.length := by
  intro l1
  induction l1 with
  | nil =>
    intro l2 x hx
    simp [List.takeWhile_cons, hx]
  | cons a l1 ih =>
    intro l2 x hx
    rw [List.cons_append, List.takeWhile_cons]
    by_cases ha : p a
    · simp only [ha, if_true, List.length_cons]
      exact Nat.succ_le_succ (ih l2 x hx)
    · simp [ha]

theorem takeWhile_append_stop {α : Type} (p : α → Bool) :
    ∀ (l1 l2 rest : List α) (x : α), p x = false →
      (l1 ++ x :: (l2 ++ rest)).takeWhile p = (l1 ++ x :: l2).takeWhile p := by
  intro l1
  induction l1 with
  | nil =>
    intro l2 rest x hx
    simp [List.takeWhile_cons, hx]
  | cons a l1 ih =>
    intro l2 rest x hx
    rw [List.cons_append, List.cons_append, List.takeWhile_cons, List.takeWhile_cons]
    by_cases ha : p a
    · simp only [ha, if_true, ih l2 rest x hx]
    · simp [ha]

/-- The whole category fetch equals: enrich the longest prefix of the
concatenated pages in which every item satisfies `updated_on ≤ to_date`. -/
theorem fetchCategoryItems_eq (toDate : Int) (enrich : Dict → Dict) :
    ∀ pages : List (List Dict),
      fetchCategoryItems toDate enrich pages
        = ((pages.flatten.takeWhile fun it => itemUpdatedOn it ≤ toDate).map enrich) := by
  intro pages
  induction pages with
  | nil => rfl
  | cons page rest ih =>
    rw [fetchCategoryItems, processPage_eq]
    by_cases h : (page.any fun it => decide (toDate < itemUpdatedOn it)) = true
    · rcases List.any_eq_true.mp h with ⟨x, hx, hlt⟩
      rcases List.append_of_mem hx with ⟨l1, l2, rfl⟩
      have hpx : (fun it => decide (itemUpdatedOn it ≤ toDate)) x = false := by
        simp only [decide_eq_false_iff_not, not_le]
        exact of_decide_eq_true hlt
      dsimp only
      rw [if_pos h, List.flatten_cons, List.append_assoc, List.cons_append,
        takeWhile_append_stop _ l1 l2 rest.flatten x hpx]
    · rw [if_neg h, ih, List.flatten_cons]
      have hall : ∀ a ∈ page, (fun it => decide (itemUpdatedOn it ≤ toDate)) a = true := by
        intro a ha
        have hfa := List.any_eq_false.mp (Bool.eq_false_iff.mpr h) a ha
        simp only [decide_eq_true_eq]
        simp only [decide_eq_true_eq] at hfa
        omega
      have hself : page.takeWhile (fun it => decide (itemUpdatedOn it ≤ toDate)) = page := by
        have hh := @List.takeWhile_append_of_pos _ _ page [] hall
        simpa using hh
      rw [List.takeWhile_append_of_pos hall, List.map_append, hself]

/-- C1: fetching a category (issue or pull request) with upper bound
`to_date`: if the item at array position `pg_a.length` of the page at
index `front.length` has `updated_on > to_date`, then nothing from the
rest of that page and nothing from any later page is yielded — the count
of yielded items is at most the number of items strictly before the
offending one, even when later items would satisfy the bound. -/
theorem fetch_early_termination (toDate : Int) (enrich : Dict → Dict)
    (front : List (List Dict)) (pg_a pg_b : List Dict) (x : Dict)
    (back : List (List Dict))
    (hx : toDate < itemUpdatedOn x) :
    (fetchCategoryItems toDate enrich (front ++ (pg_a ++ x :: pg_b) :: back)).length
      ≤ (front.map List.length).sum + pg_a.length := by
  rw [fetchCategoryItems_eq, List.length_map]
  have hflat : (front ++ (pg_a ++ x :: pg_b) :: back).flatten
      = (front.flatten ++ pg_a) ++ x :: (pg_b ++ back.flatten) := by
    simp [List.flatten_append, List.flatten_cons, List.append_assoc]
  rw [hflat]
  have hle := takeWhile_length_le (fun it => decide (itemUpdatedOn it ≤ toDate))
    (front.flatten ++ pg_a) (pg_b ++ back.flatten) x
    (by simpa using not_le.mpr hx)
  calc ((((front.flatten ++ pg_a) ++ x :: (pg_b ++ back.flatten)).takeWhile
          fun it => decide (itemUpdatedOn it ≤ toDate))).length
      ≤ (front.flatten ++ pg_a).length := hle
    _ = (front.map List.length).sum + pg_a.length := by
          simp [List.length_append, List.length_flatten]

/-- Witness for C1 at a concrete input: a page whose first item exceeds
the bound while a later item satisfies it, followed by a further page
whose item also satisfies it; nothing at all is yielded. -/
theorem fetch_early_termination_witness :
    (fetchCategoryItems 5 id
        [[[("updated_on", JVal.int 9)], [("updated_on", JVal.int 3)]],
         [[("updated_on", JVal.int 4)]]]).length ≤ 0 := by
  have h := fetch_early_termination 5 id [] []
    [[("updated_on", JVal.int 3)]] [("updated_on", JVal.int 9)]
    [[[("updated_on", JVal.int 4)]]] (by decide)
  simpa using h

/-! ### The link-following paginator (`BitbucketClient.fetch_items`)

`fetch_items(path, payload)` builds the first URL with
`urijoin(self.base_url, 'repositories', self.owner, self.repository, path)`
and requests it with the caller's `payload` as query parameters; it then
yields the raw page text and, while the parsed page has a `'next'` key,
requests `data['next']` — again passing `payload=payload` to
`self.fetch` — and yields that page.  The transport is abstracted as a
function from requests to parsed pages; the generator is run to a trace
of (request, yielded page) pairs, `fuel` bounding the number of
link-following steps (a server supplying `next` links forever keeps the
Python generator going forever). -/

structure PRequest where
  url : String
  payload : List (String × String)

structure RawPage where
  next : Option String
  values : List JVal

/-- `grimoirelab_toolkit.uris.urijoin`, modelled as slash-joining its
arguments (collaborator of this repository). -/
def urijoin (parts : List String) : String :=
  String.intercalate "/" parts

/-- The `while items:` loop after the first page: while the previously
parsed page carries a `next` link, request that literal URL with the
same caller `payload`, and yield the response. -/
def fetchItemsLoop (server : PRequest → RawPage) (payload : List (String × String)) :
    Nat → RawPage → List (PRequest × RawPage)
  | 0, _ => []
  | fuel + 1, data =>
    match data.next with
    | none => []
    | some u =>
      (⟨u, payload⟩, server ⟨u, payload⟩) ::
        fetchItemsLoop server payload fuel (server ⟨u, payload⟩)

/-- `BitbucketClient.fetch_items`: the trace of transport requests issued
and raw pages yielded, first page included. -/
def fetchItemsTrace (server : PRequest → RawPage)
    (baseUrl owner repository path : String)
    (payload : List (String × String)) (fuel : Nat) : List (PRequest × RawPage) :=
  let req0 : PRequest := ⟨urijoin [baseUrl, "repositories", owner, repository, path], payload⟩
  (req0, server req0) :: fetchItemsLoop server payload fuel (server req0)

theorem fetchItemsLoop_head (server : PRequest → RawPage)
    (payload : List (String × String)) (fuel : Nat) (pg : RawPage)
    (e : PRequest × RawPage) (rest : List (PRequest × RawPage))
    (h : fetchItemsLoop server payload fuel pg = e :: rest) :
    pg.next = some e.1.url ∧ e.1.payload = payload ∧ e.2 = server e.1 := by
  cases fuel with
  | zero => simp [fetchItemsLoop] at h
  | succ n =>
    cases hn : pg.next with
    | none => simp [fetchItemsLoop, hn] at h
    | some u =>
      simp only [fetchItemsLoop, hn] at h
      injection h with h1 h2
      refine ⟨?_, ?_, ?_⟩
      · rw [← h1]
      · rw [← h1]
      · rw [← h1]

theorem fetchItemsLoop_chain (server : PRequest → RawPage)
    (payload : List (String × String)) :
    ∀ (fuel : Nat) (pg : RawPage) (i : Nat) (e1 e2 : PRequest × RawPage),
      (fetchItemsLoop server payload fuel pg)[i]? = some e1 →
      (fetchItemsLoop server payload fuel pg)[i + 1]? = some e2 →
      e1.2.next = some e2.1.url ∧ e2.1.payload = payload := by
  intro fuel
  induction fuel with
  | zero => intro pg i e1 e2 h1 h2; simp [fetchItemsLoop] at h1
  | succ n ih =>
    intro pg i e1 e2 h1 h2
    cases hn : pg.next with
    | none => simp [fetchItemsLoop, hn] at h1
    | some u =>
      simp only [fetchItemsLoop, hn] at h1 h2
      cases i with
      | zero =>
        rw [List.getElem?_cons_zero] at h1
        rw [List.getElem?_cons_succ] at h2
        injection h1 with h1
        cases hr : fetchItemsLoop server payload n
            (server { url := u, payload := payload }) with
        | nil => rw [hr] at h2; simp at h2
        | cons e rest =>
          rw [hr, List.getElem?_cons_zero] at h2
          injection h2 with h2
          have hhead := fetchItemsLoop_head server payload n
            (server { url := u, payload := payload }) e rest hr
          subst h1
          subst h2
          exact ⟨hhead.1, hhead.2.1⟩
      | succ j =>
        rw [List.getElem?_cons_succ] at h1 h2
        exact ih (server { url := u, payload := payload }) j e1 e2 h1 h2

theorem fetchItemsLoop_none_last (server : PRequest → RawPage)
    (payload : List (String × String)) :
    ∀ (fuel : Nat) (pg : RawPage) (i : Nat) (e : PRequest × RawPage),
      (fetchItemsLoop server payload fuel pg)[i]? = some e →
      e.2.next = none →
      (fetchItemsLoop server payload fuel pg).length = i + 1 := by
  intro fuel
  induction fuel with
  | zero => intro pg i e h1 h2; simp [fetchItemsLoop] at h1
  | succ n ih =>
    intro pg i e h1 h2
    cases hn : pg.next with
    | none => simp [fetchItemsLoop, hn] at h1
    | some u =>
      simp only [fetchItemsLoop, hn] at h1 ⊢
      cases i with
      | zero =>
        rw [List.getElem?_cons_zero] at h1
        injection h1 with h1
        have hrest : fetchItemsLoop server payload n
            (server { url := u, payload := payload }) = [] := by
          cases hr : fetchItemsLoop server payload n
              (server { url := u, payload := payload }) with
          | nil => rfl
          | cons e2 rest =>
            have hhead := fetchItemsLoop_head server payload n
              (server { url := u, payload := payload }) e2 rest hr
            rw [← h1] at h2
            simp only at h2
            rw [h2] at hhead
            exact absurd hhead.1 (by simp)
        simp [hrest]
      | succ j =>
        rw [List.getElem?_cons_succ] at h1
        have := ih (server { url := u, payload := payload }) j e h1 h2
        simp [this]

/-- C2 (corrected): in every paginated fetch the first request uses the
URL assembled from base URL, `'repositories'`, owner, repository and
path, together with the caller's query payload; every subsequent request
uses the literal `next` URL taken verbatim from the previous page — but
the paginator passes the caller's payload again, unchanged, with every
subsequent request (`self.fetch(url_next, payload=payload)` inside the
loop), so the query parameters are re-applied after the first page
rather than dropped. -/
theorem paginator_requests (server : PRequest → RawPage)
    (baseUrl owner repository path : String)
    (payload : List (String × String)) (fuel : Nat) (i : Nat)
    (e1 e2 : PRequest × RawPage)
    (h1 : (fetchItemsTrace server baseUrl owner repository path payload fuel)[i]?
        = some e1)
    (h2 : (fetchItemsTrace server baseUrl owner repository path payload fuel)[i + 1]?
        = some e2) :
    ((fetchItemsTrace server baseUrl owner repository path payload fuel)[0]?
        = some (⟨urijoin [baseUrl, "repositories", owner, repository, path], payload⟩,
            server ⟨urijoin [baseUrl, "repositories", owner, repository, path], payload⟩))
    ∧ e1.2.next = some e2.1.url ∧ e2.1.payload = payload := by
  refine ⟨?_, ?_⟩
  · simp only [fetchItemsTrace]
    exact List.getElem?_cons_zero
  simp only [fetchItemsTrace] at h1 h2
  cases i with
  | zero =>
    rw [List.getElem?_cons_zero] at h1
    injection h1 with h1
    rw [List.getElem?_cons_succ] at h2
    cases hr : fetchItemsLoop server payload fuel
        (server ⟨urijoin [baseUrl, "repositories", owner, repository, path], payload⟩) with
    | nil => rw [hr] at h2; simp at h2
    | cons e rest =>
      rw [hr, List.getElem?_cons_zero] at h2
      injection h2 with h2
      have hhead := fetchItemsLoop_head server payload fuel
        (server ⟨urijoin [baseUrl, "repositories", owner, repository, path], payload⟩)
        e rest hr
      subst h1
      subst h2
      exact ⟨hhead.1, hhead.2.1⟩
  | succ j =>
    rw [List.getElem?_cons_succ] at h1 h2
    exact fetchItemsLoop_chain server payload fuel
      (server ⟨urijoin [baseUrl, "repositories", owner, repository, path], payload⟩)
      j e1 e2 h1 h2

/-- C3 (corrected): the paginator terminates exactly when a fetched
page's JSON has no `next` key — such a page is the last trace entry, so
no further transport request is issued after it.  The page's `values`
array plays no role in termination (see the counterexample, where an
empty-`values` page with a `next` link is followed by another request). -/
theorem paginator_stops_only_at_no_next (server : PRequest → RawPage)
    (baseUrl owner repository path : String)
    (payload : List (String × String)) (fuel : Nat) (i : Nat)
    (e : PRequest × RawPage)
    (h1 : (fetchItemsTrace server baseUrl owner repository path payload fuel)[i]?
        = some e)
    (h2 : e.2.next = none) :
    (fetchItemsTrace server baseUrl owner repository path payload fuel).length = i + 1 := by
  simp only [fetchItemsTrace] at h1 ⊢
  cases i with
  | zero =>
    rw [List.getElem?_cons_zero] at h1
    injection h1 with h1
    have hrest : fetchItemsLoop server payload fuel
        (server ⟨urijoin [baseUrl, "repositories", owner, repository, path], payload⟩) = [] := by
      cases hr : fetchItemsLoop server payload fuel
          (server ⟨urijoin [baseUrl, "repositories", owner, repository, path], payload⟩) with
      | nil => rfl
      | cons e2 rest =>
        have hhead := fetchItemsLoop_head server payload fuel
          (server ⟨urijoin [baseUrl, "repositories", owner, repository, path], payload⟩)
          e2 rest hr
        rw [← h1] at h2
        simp only at h2
        rw [h2] at hhead
        exact absurd hhead.1 (by simp)
    simp [hrest]
  | succ j =>
    rw [List.getElem?_cons_succ] at h1
    have := fetchItemsLoop_none_last server payload fuel
      (server ⟨urijoin [baseUrl, "repositories", owner, repository, path], payload⟩)
      j e h1 h2
    simp [this]

/-- A fixture transport for the paginator: the assembled first URL
returns a page with an empty `values` array but a `next` link; the
`next` URL returns a final page with one value and no `next` link. -/
def serverEmptyValues (r : PRequest) : RawPage :=
  if r.url = "https://api.test/page2" then ⟨none, [JVal.int 1]⟩
  else ⟨some "https://api.test/page2", []⟩

/-- C3 counterexample: against `serverEmptyValues`, the first fetched
page has `values = []` yet the paginator issues a second transport
request (the trace has two entries), refuting that an empty `values`
array terminates pagination with no further request. -/
theorem paginator_empty_values_counterexample :
    ((fetchItemsTrace serverEmptyValues "https://api.test" "own" "repo" "issues" [] 5).map
        fun e => (e.2.values, e.2.next))
      = [(([] : List JVal), some "https://api.test/page2"),
         ([JVal.int 1], (none : Option String))] := by
  rfl

/-- A fixture transport with two pages, both non-empty. -/
def serverTwoPages (r : PRequest) : RawPage :=
  if r.url = "https://api.test/p2" then ⟨none, [JVal.int 2]⟩
  else ⟨some "https://api.test/p2", [JVal.int 1]⟩

/-- C2 counterexample: against `serverTwoPages` with caller payload
`sort=updated_on`, the second request (to the literal `next` URL) again
carries the caller's query parameters, refuting that no query parameters
are re-applied by the paginator after the first page. -/
theorem paginator_payload_counterexample :
    ((fetchItemsTrace serverTwoPages "https://api.test" "own" "repo" "issues"
        [("sort", "updated_on")] 5).map fun e => e.1.payload)
      = [[("sort", "updated_on")], [("sort", "updated_on")]] := by
  rfl

def twoPagesReq0 : PRequest :=
  ⟨urijoin ["https://api.test", "repositories", "own", "repo", "issues"],
   [("sort", "updated_on")]⟩

def twoPagesEntry0 : PRequest × RawPage :=
  (twoPagesReq0, serverTwoPages twoPagesReq0)

def twoPagesEntry1 : PRequest × RawPage :=
  (⟨"https://api.test/p2", [("sort", "updated_on")]⟩,
   serverTwoPages ⟨"https://api.test/p2", [("sort", "updated_on")]⟩)

/-- Witness for the corrected C2 theorem at the two-page fixture. -/
theorem paginator_requests_witness :
    ((fetchItemsTrace serverTwoPages "https://api.test" "own" "repo" "issues"
        [("sort", "updated_on")] 5)[0]?
      = some (twoPagesReq0, serverTwoPages twoPagesReq0))
    ∧ twoPagesEntry0.2.next = some twoPagesEntry1.1.url
    ∧ twoPagesEntry1.1.payload = [("sort", "updated_on")] :=
  paginator_requests serverTwoPages "https://api.test" "own" "repo" "issues"
    [("sort", "updated_on")] 5 0 twoPagesEntry0 twoPagesEntry1 rfl rfl

def emptyValuesEntry1 : PRequest × RawPage :=
  (⟨"https://api.test/page2", []⟩, serverEmptyValues ⟨"https://api.test/page2", []⟩)

/-- Witness for the corrected C3 theorem at the empty-values fixture:
the trace entry at index 1 has no `next`, and the trace has length 2. -/
theorem paginator_stops_witness :
    (fetchItemsTrace serverEmptyValues "https://api.test" "own" "repo" "issues" [] 5).length
      = 1 + 1 :=
  paginator_stops_only_at_no_next serverEmptyValues "https://api.test" "own" "repo" "issues"
    [] 5 1 emptyValuesEntry1 rfl rfl

/-! ### The user cache (`BitbucketClient.user`)

`user(url_user, name)` first looks `name` up in the `_users` cache and,
on a hit, returns the stored raw text with no network access; on a miss
it fetches `url_user` through the transport, stores the raw text under
`name`, and returns it.  The transport is abstracted as a function from
URLs to response texts; a call returns the result, the updated cache,
and the list of names fetched over the network (`[]` or `[name]`). -/

def user (server : String → String) (users : List (String × String))
    (urlUser name : String) : String × List (String × String) × List String :=
  match users.lookup name with
  | some u => (u, users, [])
  | none => (server urlUser, (name, server urlUser) :: users, [name])

/-- A sequence of `user` calls threaded through the cache: the results,
the final cache, and the concatenated network-fetch log. -/
def userCalls (server : String → String) :
    List (String × String) → List (String × String) →
      List String × List (String × String) × List String
  | [], users => ([], users, [])
  | (url, name) :: calls, users =>
    let r := user server users url name
    let rest := userCalls server calls r.2.1
    (r.1 :: rest.1, rest.2.1, r.2.2 ++ rest.2.2)

theorem userCalls_log_fresh (server : String → String) :
    ∀ (calls : List (String × String)) (users : List (String × String)),
      (userCalls server calls users).2.2.Nodup ∧
      ∀ n ∈ (userCalls server calls users).2.2, users.lookup n = none := by
  intro calls
  induction calls with
  | nil => intro users; simp [userCalls]
  | cons c calls ih =>
    intro users
    obtain ⟨url, name⟩ := c
    cases h : users.lookup name with
    | some v =>
      simp only [userCalls, user, h]
      exact ⟨(ih users).1, fun n hn => (ih users).2 n hn⟩
    | none =>
      simp only [userCalls, user, h]
      have ihc := ih ((name, server url) :: users)
      constructor
      · simp only [List.cons_append, List.nil_append, List.nodup_cons]
        refine ⟨fun hmem => ?_, ihc.1⟩
        have := ihc.2 name hmem
        simp [List.lookup] at this
      · intro n hn
        simp only [List.cons_append, List.nil_append, List.mem_cons] at hn
        rcases hn with rfl | hn
        · exact h
        · have := ihc.2 n hn
          simp only [List.lookup] at this
          cases hbe : n == name with
          | true => rw [hbe] at this; simp at this
          | false => rw [hbe] at this; exact this

/-- C4: the user-resolution cache issues at most one network fetch per
distinct display name.  Over any call sequence from an empty cache the
network-fetch log counts every name at most once; a call whose name is
cached returns the stored raw result with no fetch and no cache change,
regardless of the `url` argument; a call for an uncached name performs
one fetch and stores the raw result before returning it. -/
theorem user_cache_single_fetch (server : String → String) :
    (∀ (calls : List (String × String)) (name : String),
        (userCalls server calls []).2.2.count name ≤ 1)
    ∧ (∀ (users : List (String × String)) (url name u : String),
        users.lookup name = some u →
        user server users url name = (u, users, []))
    ∧ (∀ (users : List (String × String)) (url name : String),
        users.lookup name = none →
        user server users url name
          = (server url, (name, server url) :: users, [name])) := by
  refine ⟨?_, ?_, ?_⟩
  · intro calls name
    have h := (userCalls_log_fresh server calls []).1
    exact List.nodup_iff_count_le_one.mp h name
  · intro users url name u h
    simp [user, h]
  · intro users url name h
    simp [user, h]

/-- Witness for C4: two calls sharing the display name `alice` log at
most one fetch, and a hit returns the stored value for any url. -/
theorem user_cache_single_fetch_witness :
    ((userCalls (fun _ => "raw") [("u1", "alice"), ("u2", "alice")] []).2.2.count "alice" ≤ 1)
    ∧ user (fun _ => "raw") [("alice", "cached")] "u3" "alice"
        = ("cached", [("alice", "cached")], []) :=
  ⟨(user_cache_single_fetch (fun _ => "raw")).1 [("u1", "alice"), ("u2", "alice")] "alice",
   (user_cache_single_fetch (fun _ => "raw")).2.1 [("alice", "cached")] "u3" "alice" "cached" rfl⟩

/-! ### Commit enrichment (`Bitbucket.__get_pull_commits`)

The commit sub-fetch drains `client.pull_commits(pr_number)` inside a
`try` block, appending each page's `commit['hash']` values; a
`requests.exceptions.HTTPError` (the non-transient error surfaced by the
transport after retry handling) is caught and the hashes collected so
far are returned; any other exception propagates.  Each element of the
input list is one pull of the page generator: a page of commits or a
raised exception. -/

inductive TransportErr where
  | httpError
  | retryExhausted
deriving DecidableEq

structure Commit where
  hash : String

def getPullCommitsAux (hashes : List String) :
    List (Except TransportErr (List Commit)) → Except TransportErr (List String)
  | [] => .ok hashes
  | .ok page :: rest => getPullCommitsAux (hashes ++ page.map Commit.hash) rest
  | .error .httpError :: _ => .ok hashes
  | .error .retryExhausted :: _ => .error .retryExhausted

def getPullCommits (gen : List (Except TransportErr (List Commit))) :
    Except TransportErr (List String) :=
  getPullCommitsAux [] gen

/-- The comment drains (`__get_issue_comments`,
`__get_pull_review_comments`; `__get_pull_activity` has the same shape)
have no `try`/`except`: any exception raised while draining propagates
to the caller and aborts the item. -/
def getIssueComments (enrichComment : Dict → Dict) (comments : List Dict) :
    List (Except TransportErr (List Dict)) → Except TransportErr (List Dict)
  | [] => .ok comments
  | .ok page :: rest =>
    getIssueComments enrichComment (comments ++ page.map enrichComment) rest
  | .error e :: _ => .error e

theorem getPullCommitsAux_append_ok (l : List (Except TransportErr (List Commit))) :
    ∀ (pages : List (List Commit)) (hashes : List String),
      getPullCommitsAux hashes (pages.map .ok ++ l)
        = getPullCommitsAux (hashes ++ pages.flatten.map Commit.hash) l := by
  intro pages
  induction pages with
  | nil => intro hashes; simp [getPullCommitsAux]
  | cons page pages ih =>
    intro hashes
    simp only [List.map_cons, List.cons_append, getPullCommitsAux, List.append_eq]
    rw [ih, List.flatten_cons, List.map_append, List.append_assoc]

theorem getIssueComments_append_ok (enrichComment : Dict → Dict)
    (l : List (Except TransportErr (List Dict))) :
    ∀ (cpages : List (List Dict)) (comments : List Dict),
      getIssueComments enrichComment comments (cpages.map .ok ++ l)
        = getIssueComments enrichComment
            (comments ++ cpages.flatten.map enrichComment) l := by
  intro cpages
  induction cpages with
  | nil => intro comments; simp [getIssueComments]
  | cons page cpages ih =>
    intro comments
    simp only [List.map_cons, List.cons_append, getIssueComments, List.append_eq]
    rw [ih, List.flatten_cons, List.map_append, List.append_assoc]

/-- C5: a permanent HTTP error raised at any point of the commit
sub-fetch is swallowed — the enrichment returns the hashes collected
from the pages before the failure (empty when the first pull fails)
instead of propagating, so the pull-request fetch is not aborted.  A
non-HTTP exception still propagates there, and the comment drain (which
has no `try`/`except`) propagates the same HTTP error: commit
enrichment is the only swallowing point. -/
theorem pull_commits_swallow_http_error
    (pages : List (List Commit)) (rest : List (Except TransportErr (List Commit)))
    (enrichComment : Dict → Dict)
    (cpages : List (List Dict)) (crest : List (Except TransportErr (List Dict))) :
    getPullCommits (pages.map .ok ++ .error .httpError :: rest)
        = .ok (pages.flatten.map Commit.hash)
    ∧ getPullCommits (pages.map .ok ++ .error .retryExhausted :: rest)
        = .error .retryExhausted
    ∧ getIssueComments enrichComment [] (cpages.map .ok ++ .error .httpError :: crest)
        = .error .httpError := by
  refine ⟨?_, ?_, ?_⟩
  · rw [getPullCommits, getPullCommitsAux_append_ok]
    simp [getPullCommitsAux]
  · rw [getPullCommits, getPullCommitsAux_append_ok]
    simp [getPullCommitsAux]
  · rw [getIssueComments_append_ok]
    simp [getIssueComments]

/-! ### User resolution skip (`Bitbucket.__get_user`) -/

/-- Python truthiness of the `name` argument of `__get_user`: an absent
(`None`) or empty display name is falsy. -/
def truthyName : Option String → Bool
  | none => false
  | some s => !(s == "")

/-- `Bitbucket.__get_user(url_user, name)`: when `not name or
self.exclude_user_data` holds, returns `None` (the empty/absent marker
assigned to the `*_data` field) without calling the client; otherwise
calls `client.user(url_user['href'], name)` and parses the raw text.
The result is paired with the number of `client.user` calls made. -/
def getUser (excludeUserData : Bool) (clientUser : String → String)
    (parse : String → JVal) (urlHref : String) (name : Option String) :
    Option JVal × Nat :=
  if !truthyName name || excludeUserData then (none, 0)
  else (some (parse (clientUser urlHref)), 1)

/-- C6: whenever the display name is absent or empty, or the caller has
requested exclusion of personal data, user resolution performs no
client call (hence no transport fetch) and resolves the identity field
to the explicit empty marker `None`. -/
theorem get_user_skip (excludeUserData : Bool) (clientUser : String → String)
    (parse : String → JVal) (urlHref : String) (name : Option String)
    (h : name = none ∨ name = some "" ∨ excludeUserData = true) :
    getUser excludeUserData clientUser parse urlHref name = (none, 0) := by
  rcases h with h | h | h <;> simp [getUser, truthyName, h]

/-- Witness for C6 at an empty display name with the exclusion flag off. -/
theorem get_user_skip_witness :
    getUser false (fun _ => "raw") (fun _ => JVal.null) "https://u/x" (some "")
      = (none, 0) :=
  get_user_skip false (fun _ => "raw") (fun _ => JVal.null) "https://u/x" (some "")
    (Or.inr (Or.inl rfl))

/-! ### Metadata extraction (`Bitbucket.metadata_id`) -/

/-- The two item fields `metadata_id` reads: the `updated_on` string
(present iff the key is) and the integer `id` (always present on
Bitbucket items). -/
structure MetaItem where
  updated_on : Option String
  id : Int

/-- `Bitbucket.metadata_id`: `str(item['updated_on']) + str(item['id'])`
when `"updated_on" in item`; otherwise the Python function falls off the
end and implicitly returns `None`. -/
def metadata_id (item : MetaItem) : Option String :=
  match item.updated_on with
  | some u => some (u ++ toString item.id)
  | none => none

/-- C7: for every item carrying an `updated_on` field the identifier is
the concatenation of `updated_on` and `id`, in that order. -/
theorem metadata_id_concat (item : MetaItem) (u : String)
    (h : item.updated_on = some u) :
    metadata_id item = some (u ++ toString item.id) := by
  simp [metadata_id, h]

/-- Witness for C7 at a concrete item. -/
theorem metadata_id_concat_witness :
    metadata_id ⟨some "2020-03-01T00:00:00+00:00", 7⟩
      = some ("2020-03-01T00:00:00+00:00" ++ toString (7 : Int)) :=
  metadata_id_concat ⟨some "2020-03-01T00:00:00+00:00", 7⟩
    "2020-03-01T00:00:00+00:00" rfl

/-- C9: for every item without an `updated_on` key, `metadata_id`
returns no identifier (Python `None`) rather than raising or deriving
one from `id` alone. -/
theorem metadata_id_absent (n : Int) :
    metadata_id ⟨none, n⟩ = none := rfl

/-! ### Date normalisation in `Bitbucket.fetch` -/

/-- An aware Python datetime: the absolute instant (epoch seconds) and
a UTC-offset tag (minutes).  Comparison between aware datetimes is by
absolute instant. -/
structure PyDatetime where
  instant : Int
  utcOffset : Int

/-- Modelled from the spec: `grimoirelab_toolkit.datetime.datetime_to_utc`
is a collaborator outside this repository that converts an aware
datetime to the UTC timezone, preserving the absolute instant. -/
def datetime_to_utc (d : PyDatetime) : PyDatetime := ⟨d.instant, 0⟩

/-- Modelled from the spec: `perceval.utils.DEFAULT_DATETIME`, the
default lower bound (1970-01-01 00:00 UTC), outside this repository. -/
def DEFAULT_DATETIME : PyDatetime := ⟨0, 0⟩

/-- Modelled from the spec: `perceval.utils.DEFAULT_LAST_DATETIME`, the
default upper bound (2100-01-01 00:00 UTC), outside this repository. -/
def DEFAULT_LAST_DATETIME : PyDatetime := ⟨4102444800, 0⟩

/-- The date normalisation at the top of `Bitbucket.fetch`: a missing
(falsy) bound is replaced by its default, then both bounds are passed
through `datetime_to_utc`. -/
def fetchResolveDates (from_date to_date : Option PyDatetime) :
    PyDatetime × PyDatetime :=
  (datetime_to_utc (from_date.getD DEFAULT_DATETIME),
   datetime_to_utc (to_date.getD DEFAULT_LAST_DATETIME))

/-- `Bitbucket.fetch` down to the category loop: items are produced by
the category fetch with the normalised UTC `to_date` instant as the
cutoff. -/
def bitbucketFetch (enrich : Dict → Dict) (pages : List (List Dict))
    (from_date to_date : Option PyDatetime) : List Dict :=
  fetchCategoryItems (fetchResolveDates from_date to_date).2.instant enrich pages

/-- C10: a missing/falsy `from_date` becomes the default lower bound and
a missing/falsy `to_date` the default upper bound; both bounds are in
UTC (offset 0) with their instants preserved, and the cutoff comparison
of the item fetch runs against the normalised UTC upper bound. -/
theorem fetch_date_normalization (from_date to_date : Option PyDatetime) :
    ((fetchResolveDates from_date to_date).1.utcOffset = 0
      ∧ (fetchResolveDates from_date to_date).2.utcOffset = 0)
    ∧ (from_date = none →
        (fetchResolveDates from_date to_date).1 = datetime_to_utc DEFAULT_DATETIME)
    ∧ (to_date = none →
        (fetchResolveDates from_date to_date).2 = datetime_to_utc DEFAULT_LAST_DATETIME)
    ∧ (∀ d, from_date = some d →
        (fetchResolveDates from_date to_date).1.instant = d.instant)
    ∧ (∀ d, to_date = some d →
        (fetchResolveDates from_date to_date).2.instant = d.instant)
    ∧ (∀ (enrich : Dict → Dict) (pages : List (List Dict)),
        bitbucketFetch enrich pages from_date to_date
          = fetchCategoryItems (fetchResolveDates from_date to_date).2.instant
              enrich pages) := by
  refine ⟨⟨rfl, rfl⟩, ?_, ?_, ?_, ?_, fun _ _ => rfl⟩
  · intro h; rw [h]; rfl
  · intro h; rw [h]; rfl
  · intro d h; rw [h]; rfl
  · intro d h; rw [h]; rfl

/-- Witness for C10: a missing `from_date` resolves to the default lower
bound, and a `to_date` with a non-UTC offset keeps its instant. -/
theorem fetch_date_normalization_witness :
    (fetchResolveDates none (some ⟨100, 330⟩)).1 = datetime_to_utc DEFAULT_DATETIME
    ∧ (fetchResolveDates none (some ⟨100, 330⟩)).2.instant = 100 :=
  ⟨(fetch_date_normalization none (some ⟨100, 330⟩)).2.1 rfl,
   (fetch_date_normalization none (some ⟨100, 330⟩)).2.2.2.2.1 ⟨100, 330⟩ rfl⟩

/-! ### Enrichment of yielded items

`__init_extra_issue_fields` / `__init_extra_pull_fields` run before
enrichment on every item that passed the date cutoff; the field loops
then overwrite the `*_data` keys when the corresponding raw sub-object
is truthy.  The sub-fetch results are abstracted as functions of exactly
the arguments the code passes. -/

def TARGET_ISSUE_FIELDS : List String := ["reporter", "assignee", "links"]

def TARGET_PULL_FIELDS : List String := ["author", "closed_by", "links"]

/-- `Bitbucket.__init_extra_issue_fields`. -/
def initExtraIssueFields (issue : Dict) : Dict :=
  ((issue.set "reporter_data" (.dict [])).set "assignee_data" (.dict [])).set
    "comments_data" (.list [])

/-- `Bitbucket.__init_extra_pull_fields`. -/
def initExtraPullFields (pull : Dict) : Dict :=
  ((((pull.set "author_data" (.dict [])).set "review_comments_data"
      (.dict [])).set "activity_data" (.list [])).set "closed_by_data"
    (.list [])).set "commits_data" (.list [])

/-- The sub-fetch results feeding issue enrichment:
`__get_user(issue[field]['links']['self'], issue[field]['display_name'])`,
`__get_issue_assignee(issue[field]['links'], issue[field]['display_name'])`
and `__get_issue_comments(issue['id'])`, abstracted as functions of the
arguments the code passes. -/
structure IssueSubs where
  getUserRes : JVal → JVal → JVal
  getAssigneeRes : JVal → JVal → JVal
  getCommentsRes : JVal → JVal

/-- One iteration of the `for field in TARGET_ISSUE_FIELDS` loop. -/
def enrichIssueField (subs : IssueSubs) (issue : Dict) (field : String) : Dict :=
  if (Dict.get issue field).truthy = false then issue
  else if field = "reporter" then
    issue.set (field ++ "_data")
      (subs.getUserRes (((Dict.get issue field).attr "links").attr "self")
        ((Dict.get issue field).attr "display_name"))
  else if field = "assignee" then
    issue.set (field ++ "_data")
      (subs.getAssigneeRes ((Dict.get issue field).attr "links")
        ((Dict.get issue field).attr "display_name"))
  else if field = "links" then
    if (Dict.get issue field).hasKeyB "comments" then
      issue.set "comments_data" (subs.getCommentsRes (Dict.get issue "id"))
    else issue
  else issue

/-- Issue enrichment as run between the cutoff check and the yield. -/
def enrichIssue (subs : IssueSubs) (issue : Dict) : Dict :=
  TARGET_ISSUE_FIELDS.foldl (enrichIssueField subs) (initExtraIssueFields issue)

/-- The sub-fetch results feeding pull-request enrichment:
`__get_user`, `__get_pull_activity(pull['id'])`,
`__get_pull_review_comments(pull['id'])` and
`__get_pull_commits(pull['id'])`. -/
structure PullSubs where
  getUserRes : JVal → JVal → JVal
  getActivityRes : JVal → JVal
  getReviewCommentsRes : JVal → JVal
  getCommitsRes : JVal → JVal

/-- The second half of the `links` branch: `if 'commits' in pull[field]`. -/
def enrichPullCommitsField (subs : PullSubs) (pull : Dict) (field : String) : Dict :=
  if (Dict.get pull field).hasKeyB "commits" then
    pull.set "commits_data" (subs.getCommitsRes (Dict.get pull "id"))
  else pull

/-- The `links` branch: `if 'comments' in pull[field]` then the commits
check, both reading the (possibly already mutated) pull dict. -/
def enrichPullLinksField (subs : PullSubs) (pull : Dict) (field : String) : Dict :=
  if (Dict.get pull field).hasKeyB "comments" then
    enrichPullCommitsField subs
      (pull.set "review_comments_data"
        (subs.getReviewCommentsRes (Dict.get pull "id"))) field
  else enrichPullCommitsField subs pull field

/-- One iteration of the `for field in TARGET_PULL_FIELDS` loop. -/
def enrichPullField (subs : PullSubs) (pull : Dict) (field : String) : Dict :=
  if (Dict.get pull field).truthy = false then pull
  else if field = "author" then
    pull.set (field ++ "_data")
      (subs.getUserRes (((Dict.get pull field).attr "links").attr "self")
        ((Dict.get pull field).attr "display_name"))
  else if field = "closed_by" then
    pull.set (field ++ "_data")
      (subs.getUserRes (((Dict.get pull field).attr "links").attr "self")
        ((Dict.get pull field).attr "display_name"))
  else if field = "links" then enrichPullLinksField subs pull field
  else pull

/-- Pull-request enrichment as run between the cutoff check and the
yield: init fields, unconditional `activity_data`, then the field loop. -/
def enrichPull (subs : PullSubs) (pull : Dict) : Dict :=
  TARGET_PULL_FIELDS.foldl (enrichPullField subs)
    ((initExtraPullFields pull).set "activity_data"
      (subs.getActivityRes (Dict.get (initExtraPullFields pull) "id")))

theorem hasKey_set (d : Dict) (k k2 : String) (v : JVal) :
    (d.set k v).hasKey k2 = ((k2 == k) || d.hasKey k2) := by
  induction d with
  | nil =>
    simp only [Dict.set, Dict.hasKey, List.any_cons, List.any_nil, Bool.or_false]
    exact Bool.beq_comm
  | cons kv rest ih =>
    obtain ⟨k0, v0⟩ := kv
    by_cases hk : k0 = k
    · subst hk
      rw [show Dict.set ((k0, v0) :: rest) k0 v = (k0, v) :: rest from by
        simp [Dict.set]]
      simp only [Dict.hasKey, List.any_cons]
      rw [show ((k0 : String) == k2) = (k2 == k0) from Bool.beq_comm,
        ← Bool.or_assoc, Bool.or_self]
    · rw [show Dict.set ((k0, v0) :: rest) k v = (k0, v0) :: Dict.set rest k v from by
        simp [Dict.set, hk]]
      simp only [Dict.hasKey, List.any_cons]
      simp only [Dict.hasKey] at ih
      rw [ih, Bool.or_left_comm]

theorem hasKey_set_self (d : Dict) (k : String) (v : JVal) :
    (d.set k v).hasKey k = true := by
  rw [hasKey_set]
  simp

theorem hasKey_set_preserved (d : Dict) (k k2 : String) (v : JVal)
    (h : d.hasKey k2 = true) : (d.set k v).hasKey k2 = true := by
  rw [hasKey_set]
  simp [h]

theorem enrichIssueField_hasKey (subs : IssueSubs) (field : String)
    (d : Dict) (k : String) (h : d.hasKey k = true) :
    (enrichIssueField subs d field).hasKey k = true := by
  unfold enrichIssueField
  split
  · exact h
  split
  · exact hasKey_set_preserved _ _ _ _ h
  split
  · exact hasKey_set_preserved _ _ _ _ h
  split
  · split
    · exact hasKey_set_preserved _ _ _ _ h
    · exact h
  · exact h

theorem enrichPullField_hasKey (subs : PullSubs) (field : String)
    (d : Dict) (k : String) (h : d.hasKey k = true) :
    (enrichPullField subs d field).hasKey k = true := by
  unfold enrichPullField enrichPullLinksField enrichPullCommitsField
  split
  · exact h
  split
  · exact hasKey_set_preserved _ _ _ _ h
  split
  · exact hasKey_set_preserved _ _ _ _ h
  split
  · split
    · split
      · exact hasKey_set_preserved _ _ _ _
          (hasKey_set_preserved _ _ _ _ h)
      · exact hasKey_set_preserved _ _ _ _ h
    · split
      · exact hasKey_set_preserved _ _ _ _ h
      · exact h
  · exact h

theorem foldl_enrichIssueField_hasKey (subs : IssueSubs) (k : String) :
    ∀ (fields : List String) (d : Dict), d.hasKey k = true →
      (fields.foldl (enrichIssueField subs) d).hasKey k = true := by
  intro fields
  induction fields with
  | nil => intro d h; exact h
  | cons f fields ih =>
    intro d h
    exact ih _ (enrichIssueField_hasKey subs f d k h)

theorem foldl_enrichPullField_hasKey (subs : PullSubs) (k : String) :
    ∀ (fields : List String) (d : Dict), d.hasKey k = true →
      (fields.foldl (enrichPullField subs) d).hasKey k = true := by
  intro fields
  induction fields with
  | nil => intro d h; exact h
  | cons f fields ih =>
    intro d h
    exact ih _ (enrichPullField_hasKey subs f d k h)

theorem enrichIssue_hasKeys (subs : IssueSubs) (issue : Dict) :
    (enrichIssue subs issue).hasKey "reporter_data" = true
    ∧ (enrichIssue subs issue).hasKey "assignee_data" = true
    ∧ (enrichIssue subs issue).hasKey "comments_data" = true := by
  refine ⟨?_, ?_, ?_⟩ <;>
    refine foldl_enrichIssueField_hasKey subs _ TARGET_ISSUE_FIELDS
      (initExtraIssueFields issue) ?_
  · exact hasKey_set_preserved _ _ _ _
      (hasKey_set_preserved _ _ _ _ (hasKey_set_self _ _ _))
  · exact hasKey_set_preserved _ _ _ _ (hasKey_set_self _ _ _)
  · exact hasKey_set_self _ _ _

theorem enrichPull_hasKeys (subs : PullSubs) (pull : Dict) :
    (enrichPull subs pull).hasKey "author_data" = true
    ∧ (enrichPull subs pull).hasKey "review_comments_data" = true
    ∧ (enrichPull subs pull).hasKey "activity_data" = true
    ∧ (enrichPull subs pull).hasKey "closed_by_data" = true
    ∧ (enrichPull subs pull).hasKey "commits_data" = true := by
  refine ⟨?_, ?_, ?_, ?_, ?_⟩ <;>
    refine foldl_enrichPullField_hasKey subs _ TARGET_PULL_FIELDS _ ?_ <;>
    refine hasKey_set_preserved _ _ _ _ ?_
  · exact hasKey_set_preserved _ _ _ _ (hasKey_set_preserved _ _ _ _
      (hasKey_set_preserved _ _ _ _ (hasKey_set_preserved _ _ _ _
        (hasKey_set_self _ _ _))))
  · exact hasKey_set_preserved _ _ _ _ (hasKey_set_preserved _ _ _ _
      (hasKey_set_preserved _ _ _ _ (hasKey_set_self _ _ _)))
  · exact hasKey_set_preserved _ _ _ _
      (hasKey_set_preserved _ _ _ _ (hasKey_set_self _ _ _))
  · exact hasKey_set_preserved _ _ _ _ (hasKey_set_self _ _ _)
  · exact hasKey_set_self _ _ _

/-- C8: every yielded issue carries the keys `reporter_data`,
`assignee_data` and `comments_data`; every yielded pull request carries
`author_data`, `review_comments_data`, `activity_data`, `closed_by_data`
and `commits_data` — each key is initialised to an empty value before
enrichment, so it is present even when the corresponding sub-resource
is absent or skipped. -/
theorem yielded_items_have_enrichment_keys (isubs : IssueSubs) (psubs : PullSubs)
    (toDate : Int) (ipages ppages : List (List Dict)) :
    (∀ d ∈ fetchCategoryItems toDate (enrichIssue isubs) ipages,
        d.hasKey "reporter_data" = true ∧ d.hasKey "assignee_data" = true ∧
        d.hasKey "comments_data" = true)
    ∧ (∀ d ∈ fetchCategoryItems toDate (enrichPull psubs) ppages,
        d.hasKey "author_data" = true ∧ d.hasKey "review_comments_data" = true ∧
        d.hasKey "activity_data" = true ∧ d.hasKey "closed_by_data" = true ∧
        d.hasKey "commits_data" = true) := by
  constructor
  · intro d hd
    rw [fetchCategoryItems_eq] at hd
    rcases List.mem_map.mp hd with ⟨x, hx, rfl⟩
    exact enrichIssue_hasKeys isubs x
  · intro d hd
    rw [fetchCategoryItems_eq] at hd
    rcases List.mem_map.mp hd with ⟨x, hx, rfl⟩
    exact enrichPull_hasKeys psubs x

def isubs0 : IssueSubs :=
  ⟨fun _ _ => .null, fun _ _ => .null, fun _ => .null⟩

def psubs0 : PullSubs :=
  ⟨fun _ _ => .null, fun _ => .null, fun _ => .null, fun _ => .null⟩

/-- Witness for C8: a one-item page within the date bound yields an item
carrying the initialised keys, for both categories. -/
theorem yielded_items_have_enrichment_keys_witness :
    (enrichIssue isubs0 [("updated_on", JVal.int 0)]).hasKey "reporter_data" = true
    ∧ (enrichPull psubs0 [("updated_on", JVal.int 0)]).hasKey "commits_data" = true := by
  have h := yielded_items_have_enrichment_keys isubs0 psubs0 0
    [[[("updated_on", JVal.int 0)]]] [[[("updated_on", JVal.int 0)]]]
  refine ⟨(h.1 _ ?_).1, (h.2 _ ?_).2.2.2.2⟩
  · rw [show fetchCategoryItems 0 (enrichIssue isubs0) [[[("updated_on", JVal.int 0)]]]
        = [enrichIssue isubs0 [("updated_on", JVal.int 0)]] from rfl]
    exact List.mem_singleton.mpr rfl
  · rw [show fetchCategoryItems 0 (enrichPull psubs0) [[[("updated_on", JVal.int 0)]]]
        = [enrichPull psubs0 [("updated_on", JVal.int 0)]] from rfl]
    exact List.mem_singleton.mpr rfl

end BitbucketSpec
